import Mathlib

/-!
Verification of the `intended-fors` pairing script (`src/intended_for.py`).

This file shallowly embeds the parts of the script that the specification's
claims are about: the run-grouping of fieldmap files (`get_fmap_runs`), the
`closest` pairing loop (`pair_by_closest`), the `last` pairing
(`pair_by_last`), the strategy dispatch of `sefm_select` (lines 105–125),
the sidecar-path derivation used by `main` and by the `closest` branch, and
the sidecar upsert `insert_edit_json`.

Python runtime errors that the script can actually raise on the modelled
inputs (`IndexError` from `pairs[-1]` or `fmap_keys[fmap_iter + 1]`,
`NameError` from the calls to the undefined module-level names `pair_fmap`
and `insert_edit_json`, `KeyError`/`ValueError` from dict and `min` use)
are made explicit with an `Except` result. Python `dict`s are embedded as
association lists in insertion order with overwrite-in-place assignment,
matching CPython semantics. Python `sorted` on integer keys is embedded as
a stable ascending sort with `≤`.
-/

namespace IntendedFor

/-- Python runtime errors reachable in the embedded fragments. -/
inductive PyErr where
  | indexError
  | keyError
  | valueError
  | nameError (missing : String)
deriving DecidableEq, Repr

instance {ε α : Type} [DecidableEq ε] [DecidableEq α] : DecidableEq (Except ε α) := fun a b =>
  match a, b with
  | .ok x, .ok y => if h : x = y then .isTrue (by rw [h]) else .isFalse (by simp [h])
  | .ok _, .error _ => .isFalse (by simp)
  | .error _, .ok _ => .isFalse (by simp)
  | .error e, .error e' => if h : e = e' then .isTrue (by rw [h]) else .isFalse (by simp [h])

/-- A CPython `dict` as an association list in key-insertion order:
`d[k] = v` overwrites the binding of `k` in place when present (dict keys
are unique, so at most one binding exists), else appends at the end. -/
def dictInsert {α β : Type} [DecidableEq α] (d : List (α × β)) (k : α) (v : β) :
    List (α × β) :=
  match d with
  | [] => [(k, v)]
  | p :: rest => if p.1 = k then (k, v) :: rest else p :: dictInsert rest k v

/-- `k in d` / `d.get(k)`: the binding of `k`, if any. -/
def dictGet? {α β : Type} [DecidableEq α] (d : List (α × β)) (k : α) : Option β :=
  match d with
  | [] => none
  | p :: rest => if p.1 = k then some p.2 else dictGet? rest k

/-- `d[k]` lookup, raising `KeyError` when absent. -/
def dictGetE {α β : Type} [DecidableEq α] (d : List (α × β)) (k : α) : Except PyErr β :=
  match dictGet? d k with
  | some v => .ok v
  | none => .error .keyError

/-- `list(d.keys())` in insertion order. -/
def dictKeys {α β : Type} (d : List (α × β)) : List α := d.map Prod.fst

/-- One fieldmap sidecar record as returned by
`layout.get(..., datatype='fmap', extension='.json')`: its path, its `run`
entity and its `SeriesNumber` metadata. -/
structure FmapFile where
  path : String
  run : Int
  series : Int
deriving DecidableEq, Repr

/-- One functional scan record as returned by `get_func`: its path and its
`SeriesNumber` metadata. -/
structure FuncFile where
  path : String
  series : Int
deriving DecidableEq, Repr

/-- Loop body of `FieldmapPairing.get_fmap_runs` (lines 151–156): append
the file to its run's list if the run key exists, else start the list. -/
def runsStep (runs : List (Int × List FmapFile)) (f : FmapFile) :
    List (Int × List FmapFile) :=
  match dictGet? runs f.run with
  | some g => dictInsert runs f.run (g ++ [f])
  | none => dictInsert runs f.run [f]

/-- `FieldmapPairing.get_fmap_runs` (src/intended_for.py lines 144–157):
partition the fieldmap files by their `run` entity, preserving first-seen
run order and within-run encounter order. No cardinality check is made. -/
def get_fmap_runs (files : List FmapFile) : List (Int × List FmapFile) :=
  files.foldl runsStep []

/-- Python `min` over a list of ints: `ValueError` on the empty list. -/
def pyMin : List Int → Except PyErr Int
  | [] => .error .valueError
  | x :: xs => .ok (xs.foldl min x)

/-- Python `l[i]`: `IndexError` when out of range (nonnegative indices). -/
def pyIndex {α : Type} (l : List α) (i : Nat) : Except PyErr α :=
  match l.get? i with
  | some x => .ok x
  | none => .error .indexError

/-- Python `l[-1]`: `IndexError` on the empty list. -/
def pyLastE {α : Type} (l : List α) : Except PyErr α :=
  match l.getLast? with
  | some x => .ok x
  | none => .error .indexError

/-- Python `sorted` on integers: a stable ascending sort (embedded as
insertion sort, which is stable like Python's timsort; here it is only
applied to lists of distinct dict keys). -/
def pySorted (l : List Int) : List Int := l.insertionSort (fun a b => a ≤ b)

/-- Loop body of the `fmap_series_nums` construction of `pair_by_closest`
(lines 182–184): key the run's path list under its minimum member
`SeriesNumber`. -/
def seriesStep (d : List (Int × List String)) (rg : Int × List FmapFile) :
    Except PyErr (List (Int × List String)) := do
  let m ← pyMin (rg.2.map (fun f => f.series))
  pure (dictInsert d m (rg.2.map (fun f => f.path)))

/-- The `fmap_series_nums` dict of `pair_by_closest` (lines 181–184): for
each run (in dict order) map the minimum member `SeriesNumber` to the list
of member paths. -/
def fmap_series_map (runs : List (Int × List FmapFile)) :
    Except PyErr (List (Int × List String)) :=
  runs.foldlM seriesStep []

/-- One binding step of the `func_series_nums` dict comprehension. -/
def funcStep (d : List (Int × String)) (f : FuncFile) : List (Int × String) :=
  dictInsert d f.series f.path

/-- The `func_series_nums` dict comprehension of `pair_by_closest`
(line 187): `SeriesNumber → path`, a later record overwriting an earlier
one with the same series number. -/
def func_series_map (func : List FuncFile) : List (Int × String) :=
  func.foldl funcStep []

/-- One iteration of the cursor logic of `pair_by_closest` (lines
195–202): with short-circuit evaluation, keep the cursor when
`fmap_iter == len(fmap_keys) - 1` (Python int arithmetic, so `-1` on an
empty key list) or when the functional series number is strictly below the
next fieldmap key; otherwise advance the cursor by exactly one. Indexing
`fmap_keys[fmap_iter + 1]` raises `IndexError` when out of range. -/
def closestStep (fmapKeys : List Int) (g : Nat) (k : Int) : Except PyErr Nat :=
  if (g : Int) = (fmapKeys.length : Int) - 1 then .ok g
  else
    match fmapKeys.get? (g + 1) with
    | none => .error .indexError
    | some nk => if k < nk then .ok g else .ok (g + 1)

/-- The assignment loop of `pair_by_closest` (lines 191–202), iterating the
sorted functional series numbers: per iteration run `closestStep`, then set
`pairing[func_series_nums[k]] = fmap_series_nums[fmap_keys[g']]`.
Alongside the pairing dict it also returns the cursor value used for each
functional key (the cursor trace), a pure observation used only to state
specifications. -/
def closest_assign_loop (fmapKeys : List Int) (fsn : List (Int × List String))
    (funSn : List (Int × String)) :
    Nat → List (String × List String) → List Int →
      Except PyErr (List (String × List String) × List Nat)
  | _, pairing, [] => .ok (pairing, [])
  | g, pairing, k :: ks => do
    let g' ← closestStep fmapKeys g k
    let fk ← pyIndex fmapKeys g'
    let fmaps ← dictGetE fsn fk
    let fp ← dictGetE funSn k
    let (res, gs) ← closest_assign_loop fmapKeys fsn funSn g' (dictInsert pairing fp fmaps) ks
    pure (res, g' :: gs)

/-- `FieldmapPairing.pair_by_closest` (lines 177–203): build the two
series-number dicts, sort their keys, and run the cursor loop starting at
`fmap_iter = 0` with an empty pairing dict. Returns the pairing dict
(functional path → fieldmap sidecar paths) and the cursor trace. -/
def pair_by_closest_traced (fmapFiles : List FmapFile) (func : List FuncFile) :
    Except PyErr (List (String × List String) × List Nat) := do
  let runs := get_fmap_runs fmapFiles
  let fsn ← fmap_series_map runs
  let funSn := func_series_map func
  let fmapKeys := pySorted (dictKeys fsn)
  let funcKeys := pySorted (dictKeys funSn)
  closest_assign_loop fmapKeys fsn funSn 0 [] funcKeys

/-- `FieldmapPairing.pair_by_closest` observable result: the returned
`pairing` dict. -/
def pair_by_closest (fmapFiles : List FmapFile) (func : List FuncFile) :
    Except PyErr (List (String × List String)) :=
  (pair_by_closest_traced fmapFiles func).map Prod.fst

/-- `FieldmapPairing.pair_by_last` (lines 167–175): look up the run with
the greatest run key (`sorted(fmap.keys())[-1]`, `IndexError` when there
are no runs) and emit one `IntendedFor` write per member of that run, each
carrying the full functional path list. -/
def pair_by_last (fmapFiles : List FmapFile) (funcPaths : List String) :
    Except PyErr (List (String × List String)) := do
  let runs := get_fmap_runs fmapFiles
  let lastRun ← pyLastE (pySorted (dictKeys runs))
  let grp ← dictGetE runs lastRun
  pure (grp.map (fun f => (f.path, funcPaths)))

/-- Does the string start with the pattern? (Character-list embedding of the
prefix test Python's `str.replace` / `str.split` scanners perform.) -/
def headMatches : List Char → List Char → Bool
  | [], _ => true
  | _ :: _, [] => false
  | p :: ps, c :: cs => p = c && headMatches ps cs

/-- Python `s.replace(pat, rep)` on character lists: scan left to right,
replacing non-overlapping occurrences of a nonempty `pat`. The fuel
argument (instantiated with the string length, enough since every step
consumes at least one character) keeps the recursion structural. -/
def pyReplaceAux (pat rep : List Char) : Nat → List Char → List Char
  | _, [] => []
  | 0, rest => rest
  | fuel + 1, c :: cs =>
    if headMatches pat (c :: cs) && !pat.isEmpty then
      rep ++ pyReplaceAux pat rep fuel (List.drop (pat.length - 1) cs)
    else
      c :: pyReplaceAux pat rep fuel cs

/-- Python `s.replace(pat, rep)` for nonempty `pat`. -/
def pyReplace (s pat rep : String) : String :=
  String.mk (pyReplaceAux pat.data rep.data s.data.length s.data)

/-- The part of `s` before the first occurrence of nonempty `sep`, i.e.
Python `s.split(sep)[0]` (the whole string when `sep` does not occur). -/
def pySplitHeadAux (sep : List Char) : List Char → List Char
  | [] => []
  | c :: cs =>
    if headMatches sep (c :: cs) && !sep.isEmpty then []
    else c :: pySplitHeadAux sep cs

/-- The sidecar-path derivation of `main` (lines 304–305):
`f-string of selected.split('.nii.gz')[0] followed by .json`. -/
def sidecar_path (selected : String) : String :=
  String.mk (pySplitHeadAux ".nii.gz".data selected.data) ++ ".json"

/-- The strategy dispatch of `sefm_select` (lines 105–125), given the
`pairs` list zipped at lines 101–103. `selected_pos`/`selected_neg` start
as empty strings. The `last` branch indexes `pairs[-1]` (`IndexError` on an
empty list). The recognized spelling is `eta_square`, whose branch is
`pass`. The `closest` branch immediately raises `NameError`: its first
statement calls `pair_fmap`, a name never defined at module scope (the
class is `FieldmapPairing`; `insert_edit_json`, called two lines later, is
likewise only a method). Any other strategy value matches no branch and the
function returns the initial pair of empty strings. -/
def sefm_select (strategy : String) (pairs : List (String × String)) :
    Except PyErr (String × String) :=
  if strategy = "last" then pyLastE pairs
  else if strategy = "eta_square" then .ok ("", "")
  else if strategy = "closest" then .error (.nameError "pair_fmap")
  else .ok ("", "")

/-- The write loop of the `closest` branch (lines 121–123), taken by itself
(in the script it is unreachable: the branch raises `NameError` first, see
`sefm_select`): for each key `f` of the `pair_by_closest` dict — a
functional image path — derive `f.replace('.nii.gz', '.json')` and write
field `IntendedFor` with the dict's value, the fieldmap sidecar paths. -/
def closest_branch_writes (funcFmapMap : List (String × List String)) :
    List (String × String × List String) :=
  funcFmapMap.map (fun fv => (pyReplace fv.1 ".nii.gz" ".json", "IntendedFor", fv.2))

/-- The log line `insert_edit_json` prints: a replacement warning or an
insertion message. -/
inductive JsonLog where
  | warn
  | insertLog
deriving DecidableEq, Repr

/-- `FieldmapPairing.insert_edit_json` (lines 205–216) on the decoded
sidecar document: warn when the field is present with a different value,
otherwise print the insertion message; in both cases set the field and
write the document back in full. Returns the updated document and the log
line emitted. -/
def insert_edit_json {α : Type} [DecidableEq α] (doc : List (String × α))
    (field : String) (value : α) : List (String × α) × JsonLog :=
  let log :=
    match dictGet? doc field with
    | some old => if old ≠ value then JsonLog.warn else JsonLog.insertLog
    | none => JsonLog.insertLog
  (dictInsert doc field value, log)

/-- Total dict lookup with a default, used only to state specifications. -/
def dictGetD {α β : Type} [DecidableEq α] (d : List (α × β)) (k : α) (dflt : β) : β :=
  (dictGet? d k).getD dflt

/-!
Rule definitions written from the specification's words (not from the
source), used to compare the program against the claimed behaviour.
-/

/-- One test of the claimed while-loop guard: `g < len(groups) - 1` and
`a.order_key > groups[g+1].order_key` (written from the claim's words). -/
def claimAdvances (groupKeys : List Int) (g : Nat) (k : Int) : Bool :=
  decide (g < groupKeys.length - 1) &&
    (match groupKeys.get? (g + 1) with
     | some nk => decide (nk < k)
     | none => false)

/-- The claimed cursor rule (written from the claim's words): starting at
`g`, advance while the guard holds. The fuel argument (instantiated with
`groupKeys.length`, an upper bound on the possible advances) keeps the
recursion structural. -/
def claimCursor (groupKeys : List Int) : Nat → Nat → Int → Nat
  | 0, g, _ => g
  | fuel + 1, g, k =>
    if claimAdvances groupKeys g k then claimCursor groupKeys fuel (g + 1) k else g

/-- The cursor value the claimed rule selects for each acquisition key in
turn (written from the claim's words). -/
def claimCursorTrace (groupKeys : List Int) : Nat → List Int → List Nat
  | _, [] => []
  | g, k :: ks =>
    let g' := claimCursor groupKeys groupKeys.length g k
    g' :: claimCursorTrace groupKeys g' ks

/-- The amended cursor rule: before assigning an acquisition, the cursor
advances by exactly one step when a next group exists whose key is less
than or equal to the acquisition's key; it never advances further for the
same acquisition. -/
def amendedStep (groupKeys : List Int) (g : Nat) (k : Int) : Nat :=
  match groupKeys.get? (g + 1) with
  | some nk => if nk ≤ k then g + 1 else g
  | none => g

/-- Cursor values selected by the amended rule for each acquisition key. -/
def amendedTrace (groupKeys : List Int) : Nat → List Int → List Nat
  | _, [] => []
  | g, k :: ks =>
    let g' := amendedStep groupKeys g k
    g' :: amendedTrace groupKeys g' ks

/-- The assignment described by the amended rule: each acquisition key, in
order, is routed to the group the amended cursor selects, inserting
`path of the acquisition ↦ files of the selected group` into the pairing
dict. -/
def amendedPairing (fmapKeys : List Int) (fsn : List (Int × List String))
    (funSn : List (Int × String)) :
    Nat → List (String × List String) → List Int → List (String × List String)
  | _, pairing, [] => pairing
  | g, pairing, k :: ks =>
    let g' := amendedStep fmapKeys g k
    let fmaps := dictGetD fsn (fmapKeys.getD g' 0) []
    let fp := dictGetD funSn k ""
    amendedPairing fmapKeys fsn funSn g' (dictInsert pairing fp fmaps) ks

/-! ### Lemmas about the embedded dict operations -/

theorem dictKeys_nil {α β : Type} : dictKeys ([] : List (α × β)) = [] := rfl

theorem dictKeys_cons {α β : Type} (p : α × β) (rest : List (α × β)) :
    dictKeys (p :: rest) = p.1 :: dictKeys rest := rfl

theorem dictGet?_insert {α β : Type} [DecidableEq α] (d : List (α × β)) (k k' : α) (v : β) :
    dictGet? (dictInsert d k v) k' = if k = k' then some v else dictGet? d k' := by
  induction d with
  | nil => simp [dictInsert, dictGet?]
  | cons p rest ih =>
    simp only [dictInsert]
    by_cases hp : p.1 = k
    · rw [if_pos hp]
      by_cases hk : k = k'
      · simp [dictGet?, hk]
      · have hpk : ¬ p.1 = k' := fun h => hk (hp.symm.trans h)
        simp [dictGet?, hk, hpk]
    · rw [if_neg hp]
      by_cases hpk : p.1 = k'
      · have hk : ¬ k = k' := fun h => hp (hpk.trans h.symm)
        simp [dictGet?, hpk, hk]
      · simp [dictGet?, hpk, ih]

theorem dictGet?_insert_self {α β : Type} [DecidableEq α] (d : List (α × β)) (k : α) (v : β) :
    dictGet? (dictInsert d k v) k = some v := by
  simp [dictGet?_insert]

theorem dictGet?_insert_ne {α β : Type} [DecidableEq α] (d : List (α × β)) (k k' : α) (v : β)
    (h : k ≠ k') : dictGet? (dictInsert d k v) k' = dictGet? d k' := by
  simp [dictGet?_insert, h]

theorem mem_dictKeys_insert {α β : Type} [DecidableEq α] (d : List (α × β)) (k m : α) (v : β) :
    m ∈ dictKeys (dictInsert d k v) ↔ m ∈ dictKeys d ∨ m = k := by
  induction d with
  | nil => simp [dictInsert, dictKeys]
  | cons p rest ih =>
    simp only [dictInsert]
    by_cases hp : p.1 = k
    · rw [if_pos hp]
      simp only [dictKeys_cons, List.mem_cons, hp]
      tauto
    · rw [if_neg hp]
      simp only [dictKeys_cons, List.mem_cons, ih]
      tauto

theorem dictKeys_nodup_insert {α β : Type} [DecidableEq α] (d : List (α × β)) (k : α) (v : β)
    (h : (dictKeys d).Nodup) : (dictKeys (dictInsert d k v)).Nodup := by
  induction d with
  | nil => simp [dictInsert, dictKeys]
  | cons p rest ih =>
    simp only [dictKeys_cons, List.nodup_cons] at h
    simp only [dictInsert]
    by_cases hp : p.1 = k
    · rw [if_pos hp]
      simp only [dictKeys_cons, List.nodup_cons]
      exact ⟨hp ▸ h.1, h.2⟩
    · rw [if_neg hp]
      simp only [dictKeys_cons, List.nodup_cons]
      refine ⟨fun hm => ?_, ih h.2⟩
      rcases (mem_dictKeys_insert rest k p.1 v).mp hm with hm | hm
      · exact h.1 hm
      · exact hp hm

theorem dictGet?_isSome_of_mem {α β : Type} [DecidableEq α] (d : List (α × β)) (k : α)
    (h : k ∈ dictKeys d) : ∃ v, dictGet? d k = some v := by
  induction d with
  | nil => simp [dictKeys] at h
  | cons p rest ih =>
    by_cases hp : p.1 = k
    · exact ⟨p.2, by simp [dictGet?, hp]⟩
    · simp only [dictKeys_cons, List.mem_cons] at h
      rcases h with h | h
      · exact absurd h.symm hp
      · rcases ih h with ⟨v, hv⟩
        exact ⟨v, by simp [dictGet?, hp, hv]⟩

theorem mem_dictKeys_of_get {α β : Type} [DecidableEq α] (d : List (α × β)) (k : α) (v : β)
    (h : dictGet? d k = some v) : k ∈ dictKeys d := by
  induction d with
  | nil => simp [dictGet?] at h
  | cons p rest ih =>
    simp only [dictGet?] at h
    by_cases hp : p.1 = k
    · simp only [dictKeys_cons, List.mem_cons]
      exact Or.inl hp.symm
    · rw [if_neg hp] at h
      simp only [dictKeys_cons, List.mem_cons]
      exact Or.inr (ih h)

theorem dictGet?_of_mem_nodup {α β : Type} [DecidableEq α] (d : List (α × β)) (k : α) (v : β)
    (hnd : (dictKeys d).Nodup) (h : (k, v) ∈ d) : dictGet? d k = some v := by
  induction d with
  | nil => simp at h
  | cons p rest ih =>
    simp only [dictKeys_cons, List.nodup_cons] at hnd
    rcases List.mem_cons.mp h with h | h
    · simp [dictGet?, ← h]
    · have hp : p.1 ≠ k := by
        intro hk
        exact hnd.1 (hk ▸ (List.mem_map.mpr ⟨(k, v), h, rfl⟩))
      simp [dictGet?, hp, ih hnd.2 h]

theorem dictInsert_ne_nil {α β : Type} [DecidableEq α] (d : List (α × β)) (k : α) (v : β) :
    dictInsert d k v ≠ [] := by
  cases d with
  | nil => simp [dictInsert]
  | cons p rest =>
    by_cases hp : p.1 = k <;> simp [dictInsert, hp]

theorem dictInsert_idem {α β : Type} [DecidableEq α] (d : List (α × β)) (k : α) (v : β) :
    dictInsert (dictInsert d k v) k v = dictInsert d k v := by
  induction d with
  | nil => simp [dictInsert]
  | cons p rest ih =>
    by_cases hp : p.1 = k
    · simp [dictInsert, hp]
    · simp [dictInsert, hp, ih]

/-! ### Lemmas about sorting and last elements -/

theorem sorted_le_getLast :
    ∀ (l : List Int), l.Sorted (fun a b => a ≤ b) → ∀ (hne : l ≠ []) (x : Int), x ∈ l →
      x ≤ l.getLast hne := by
  intro l
  induction l with
  | nil => intro _ hne; cases hne rfl
  | cons a t ih =>
    intro hs hne x hx
    rcases List.sorted_cons.mp hs with ⟨ha, ht⟩
    rcases List.mem_cons.mp hx with rfl | hx
    · cases t with
      | nil => simp [List.getLast]
      | cons b t' =>
        rw [List.getLast_cons (by simp)]
        exact ha _ (List.getLast_mem (by simp))
    · cases t with
      | nil => simp at hx
      | cons b t' =>
        rw [List.getLast_cons (by simp)]
        exact ih ht (by simp) x hx

theorem pySorted_ne_nil {l : List Int} (hne : l ≠ []) : pySorted l ≠ [] := by
  intro h
  exact hne (List.Perm.eq_nil ((List.perm_insertionSort (fun a b : Int => a ≤ b) l).symm.trans
    (h ▸ List.Perm.refl _)))

theorem mem_pySorted {l : List Int} {x : Int} : x ∈ pySorted l ↔ x ∈ l :=
  (List.perm_insertionSort (fun a b : Int => a ≤ b) l).mem_iff

theorem pyLastE_pySorted_max (l : List Int) (hne : l ≠ []) :
    ∃ m, pyLastE (pySorted l) = .ok m ∧ m ∈ l ∧ ∀ x ∈ l, x ≤ m := by
  have hs := List.sorted_insertionSort (fun a b : Int => a ≤ b) l
  have hne' : pySorted l ≠ [] := pySorted_ne_nil hne
  refine ⟨(pySorted l).getLast hne', ?_, ?_, ?_⟩
  · simp [pyLastE, List.getLast?_eq_getLast _ hne']
  · exact mem_pySorted.mp (List.getLast_mem hne')
  · intro x hx
    exact sorted_le_getLast _ hs hne' x (mem_pySorted.mpr hx)

/-! ### Lemmas about the run partition -/

theorem runsStep_ne_nil (acc : List (Int × List FmapFile)) (f : FmapFile) :
    runsStep acc f ≠ [] := by
  unfold runsStep
  cases dictGet? acc f.run <;> exact dictInsert_ne_nil _ _ _

theorem runs_fold_ne_nil :
    ∀ (files : List FmapFile) (acc : List (Int × List FmapFile)), acc ≠ [] →
      files.foldl runsStep acc ≠ [] := by
  intro files
  induction files with
  | nil => intro acc h; exact h
  | cons f rest ih => intro acc _; exact ih (runsStep acc f) (runsStep_ne_nil acc f)

theorem get_fmap_runs_ne_nil {files : List FmapFile} (hne : files ≠ []) :
    get_fmap_runs files ≠ [] := by
  cases files with
  | nil => cases hne rfl
  | cons f rest =>
    show (f :: rest).foldl runsStep [] ≠ []
    rw [List.foldl_cons]
    exact runs_fold_ne_nil rest (runsStep [] f) (runsStep_ne_nil [] f)

theorem runs_fold_keys_nodup :
    ∀ (files : List FmapFile) (acc : List (Int × List FmapFile)),
      (dictKeys acc).Nodup → (dictKeys (files.foldl runsStep acc)).Nodup := by
  intro files
  induction files with
  | nil => intro acc h; exact h
  | cons f rest ih =>
    intro acc h
    rw [List.foldl_cons]
    refine ih (runsStep acc f) ?_
    unfold runsStep
    cases dictGet? acc f.run <;> exact dictKeys_nodup_insert _ _ _ h

theorem get_fmap_runs_keys_nodup (files : List FmapFile) :
    (dictKeys (get_fmap_runs files)).Nodup :=
  runs_fold_keys_nodup files [] (by simp [dictKeys])

theorem runs_fold_get :
    ∀ (files : List FmapFile) (acc : List (Int × List FmapFile)) (r : Int),
      dictGet? (files.foldl runsStep acc) r =
        match dictGet? acc r with
        | some g => some (g ++ files.filter (fun f => f.run = r))
        | none =>
            if files.filter (fun f => f.run = r) = [] then none
            else some (files.filter (fun f => f.run = r)) := by
  intro files
  induction files with
  | nil =>
    intro acc r
    cases h : dictGet? acc r <;> simp [h]
  | cons f rest ih =>
    intro acc r
    rw [List.foldl_cons, ih]
    by_cases hr : f.run = r
    · cases hacc : dictGet? acc r with
      | some g =>
        have hstep : dictGet? (runsStep acc f) r = some (g ++ [f]) := by
          unfold runsStep
          rw [hr, hacc]
          exact dictGet?_insert_self _ _ _
        rw [hstep]
        simp [List.filter_cons, hr, List.append_assoc]
      | none =>
        have hstep : dictGet? (runsStep acc f) r = some [f] := by
          unfold runsStep
          rw [hr, hacc]
          exact dictGet?_insert_self _ _ _
        rw [hstep]
        simp [List.filter_cons, hr]
    · have hstep : dictGet? (runsStep acc f) r = dictGet? acc r := by
        unfold runsStep
        cases hacc : dictGet? acc f.run <;> exact dictGet?_insert_ne _ _ _ _ hr
      rw [hstep]
      simp [List.filter_cons, hr]

theorem get_fmap_runs_get (files : List FmapFile) (r : Int) :
    dictGet? (get_fmap_runs files) r =
      if files.filter (fun f => f.run = r) = [] then none
      else some (files.filter (fun f => f.run = r)) := by
  have := runs_fold_get files [] r
  simpa [dictGet?] using this

theorem get_fmap_runs_groups_ne_nil (files : List FmapFile) :
    ∀ rg ∈ get_fmap_runs files, rg.2 ≠ [] := by
  intro rg hrg
  have hget : dictGet? (get_fmap_runs files) rg.1 = some rg.2 :=
    dictGet?_of_mem_nodup _ _ _ (get_fmap_runs_keys_nodup files) hrg
  rw [get_fmap_runs_get] at hget
  by_cases h : files.filter (fun f => f.run = rg.1) = []
  · rw [if_pos h] at hget; cases hget
  · rw [if_neg h] at hget
    intro hnil
    injection hget with h'
    exact h (h'.trans hnil)

/-! ### Lemmas about the series-number dicts -/

theorem pyMin_ok {l : List Int} (h : l ≠ []) : ∃ m, pyMin l = .ok m := by
  cases l with
  | nil => cases h rfl
  | cons x xs => exact ⟨xs.foldl min x, rfl⟩

theorem series_fold_ok :
    ∀ (runs : List (Int × List FmapFile)) (acc : List (Int × List String)),
      (∀ rg ∈ runs, rg.2 ≠ []) →
      ∃ fsn, runs.foldlM seriesStep acc = .ok fsn ∧
        (acc ≠ [] → fsn ≠ []) ∧ (runs ≠ [] → fsn ≠ []) := by
  intro runs
  induction runs with
  | nil =>
    intro acc _
    exact ⟨acc, rfl, fun h => h, fun h => absurd rfl h⟩
  | cons rg rest ih =>
    intro acc hall
    have h2 : rg.2 ≠ [] := hall rg (List.mem_cons_self _ _)
    have hmapne : rg.2.map (fun f => f.series) ≠ [] := by
      simpa [List.map_eq_nil] using h2
    rcases pyMin_ok hmapne with ⟨m, hm⟩
    have hstep : seriesStep acc rg = .ok (dictInsert acc m (rg.2.map (fun f => f.path))) := by
      unfold seriesStep
      rw [hm]
      rfl
    rcases ih (dictInsert acc m (rg.2.map (fun f => f.path)))
        (fun x hx => hall x (List.mem_cons_of_mem _ hx)) with ⟨fsn, hfold, hne1, _⟩
    refine ⟨fsn, ?_, fun _ => hne1 (dictInsert_ne_nil _ _ _), fun _ => hne1 (dictInsert_ne_nil _ _ _)⟩
    rw [List.foldlM_cons, hstep]
    exact hfold

theorem fmap_series_map_ok {runs : List (Int × List FmapFile)}
    (h : ∀ rg ∈ runs, rg.2 ≠ []) :
    ∃ fsn, fmap_series_map runs = .ok fsn ∧ (runs ≠ [] → fsn ≠ []) := by
  rcases series_fold_ok runs [] h with ⟨fsn, hfold, _, hne⟩
  exact ⟨fsn, hfold, hne⟩

theorem dictInsert_of_not_mem {α β : Type} [DecidableEq α] {d : List (α × β)} {k : α} (v : β)
    (h : k ∉ dictKeys d) : dictInsert d k v = d ++ [(k, v)] := by
  induction d with
  | nil => rfl
  | cons p rest ih =>
    simp only [dictKeys_cons, List.mem_cons] at h
    push_neg at h
    have hp : ¬ p.1 = k := fun hp => h.1 hp.symm
    simp only [dictInsert, if_neg hp, List.cons_append]
    rw [ih h.2]

theorem func_fold_eq :
    ∀ (func : List FuncFile) (acc : List (Int × String)),
      (func.map (fun f => f.series)).Nodup →
      (∀ f ∈ func, f.series ∉ dictKeys acc) →
      func.foldl funcStep acc = acc ++ func.map (fun f => (f.series, f.path)) := by
  intro func
  induction func with
  | nil => intro acc _ _; simp
  | cons f rest ih =>
    intro acc hnd hdis
    simp only [List.map_cons, List.nodup_cons] at hnd
    rw [List.foldl_cons]
    have hstep : funcStep acc f = acc ++ [(f.series, f.path)] :=
      dictInsert_of_not_mem _ (hdis f (List.mem_cons_self _ _))
    rw [hstep, ih (acc ++ [(f.series, f.path)]) hnd.2 ?_]
    · simp
    · intro f' hf'
      simp only [dictKeys, List.map_append, List.mem_append, List.map_cons]
      rintro (h | h)
      · exact hdis f' (List.mem_cons_of_mem _ hf') h
      · simp only [List.map_nil, List.mem_singleton] at h
        exact hnd.1 (h ▸ List.mem_map.mpr ⟨f', hf', rfl⟩)

theorem func_series_map_eq {func : List FuncFile}
    (h : (func.map (fun f => f.series)).Nodup) :
    func_series_map func = func.map (fun f => (f.series, f.path)) := by
  have := func_fold_eq func [] h (by simp [dictKeys])
  simpa [func_series_map] using this

theorem func_series_map_get {func : List FuncFile}
    (h : (func.map (fun f => f.series)).Nodup) {f : FuncFile} (hf : f ∈ func) :
    dictGet? (func_series_map func) f.series = some f.path := by
  rw [func_series_map_eq h]
  refine dictGet?_of_mem_nodup _ _ _ ?_ (List.mem_map.mpr ⟨f, hf, rfl⟩)
  simpa [dictKeys, List.map_map, Function.comp] using h

/-! ### The `closest` cursor: the code's step versus the amended rule -/

theorem exceptBind_ok {ε α β : Type} (a : α) (f : α → Except ε β) :
    ((Except.ok a : Except ε α) >>= f) = f a := rfl

theorem closestStep_eq {fmapKeys : List Int} {g : Nat} (k : Int) (hg : g < fmapKeys.length) :
    closestStep fmapKeys g k = .ok (amendedStep fmapKeys g k) := by
  unfold closestStep amendedStep
  by_cases hl : (g : Int) = (fmapKeys.length : Int) - 1
  · have hnone : fmapKeys.get? (g + 1) = none := List.get?_eq_none.mpr (by omega)
    rw [if_pos hl, hnone]
  · have hlt : g + 1 < fmapKeys.length := by omega
    rw [if_neg hl]
    cases hsome : fmapKeys.get? (g + 1) with
    | none =>
      rw [List.get?_eq_none] at hsome
      omega
    | some nk =>
      show (if k < nk then Except.ok g else Except.ok (g + 1))
        = Except.ok (if nk ≤ k then g + 1 else g)
      by_cases hk : k < nk
      · rw [if_pos hk, if_neg (not_le.mpr hk)]
      · rw [if_neg hk, if_pos (not_lt.mp hk)]

theorem amendedStep_lt {fmapKeys : List Int} {g : Nat} (k : Int) (hg : g < fmapKeys.length) :
    amendedStep fmapKeys g k < fmapKeys.length := by
  unfold amendedStep
  cases h : fmapKeys.get? (g + 1) with
  | none => exact hg
  | some nk =>
    have hlt : g + 1 < fmapKeys.length := by
      by_contra hc
      rw [List.get?_eq_none.mpr (by omega)] at h
      cases h
    show (if nk ≤ k then g + 1 else g) < fmapKeys.length
    by_cases hk : nk ≤ k
    · rw [if_pos hk]; exact hlt
    · rw [if_neg hk]; exact hg

theorem closest_assign_loop_eq (fmapKeys : List Int) (fsn : List (Int × List String))
    (funSn : List (Int × String))
    (hfsn : ∀ x ∈ fmapKeys, x ∈ dictKeys fsn) :
    ∀ (ks : List Int) (g : Nat) (pairing : List (String × List String)),
      g < fmapKeys.length →
      (∀ x ∈ ks, x ∈ dictKeys funSn) →
      closest_assign_loop fmapKeys fsn funSn g pairing ks =
        .ok (amendedPairing fmapKeys fsn funSn g pairing ks, amendedTrace fmapKeys g ks) := by
  intro ks
  induction ks with
  | nil => intro g pairing _ _; rfl
  | cons k ks ih =>
    intro g pairing hg hks
    have hg' : amendedStep fmapKeys g k < fmapKeys.length := amendedStep_lt k hg
    have hstep := closestStep_eq k hg
    have hidx : fmapKeys.get? (amendedStep fmapKeys g k) =
        some (fmapKeys.get ⟨amendedStep fmapKeys g k, hg'⟩) := List.get?_eq_get hg'
    have hpy : pyIndex fmapKeys (amendedStep fmapKeys g k) =
        .ok (fmapKeys.get ⟨amendedStep fmapKeys g k, hg'⟩) := by
      unfold pyIndex
      rw [hidx]
    rcases dictGet?_isSome_of_mem fsn (fmapKeys.get ⟨amendedStep fmapKeys g k, hg'⟩)
        (hfsn _ (List.get_mem _ _ _)) with ⟨fmaps, hfmaps⟩
    have hfm : dictGetE fsn (fmapKeys.get ⟨amendedStep fmapKeys g k, hg'⟩) = .ok fmaps := by
      unfold dictGetE
      rw [hfmaps]
    rcases dictGet?_isSome_of_mem funSn k (hks k (List.mem_cons_self _ _)) with ⟨fp, hfp⟩
    have hfpE : dictGetE funSn k = .ok fp := by
      unfold dictGetE
      rw [hfp]
    have hrec := ih (amendedStep fmapKeys g k) (dictInsert pairing fp fmaps) hg'
      (fun x hx => hks x (List.mem_cons_of_mem _ hx))
    have hgetD : fmapKeys.getD (amendedStep fmapKeys g k) 0 =
        fmapKeys.get ⟨amendedStep fmapKeys g k, hg'⟩ := by
      rw [List.getD_eq_get?, hidx]
      rfl
    have hfpD : dictGetD funSn k "" = fp := by
      unfold dictGetD
      rw [hfp]
      rfl
    have hfmD : dictGetD fsn (fmapKeys.getD (amendedStep fmapKeys g k) 0) [] = fmaps := by
      unfold dictGetD
      rw [hgetD, hfmaps]
      rfl
    calc closest_assign_loop fmapKeys fsn funSn g pairing (k :: ks)
        = .ok (amendedPairing fmapKeys fsn funSn (amendedStep fmapKeys g k)
                 (dictInsert pairing fp fmaps) ks,
               amendedStep fmapKeys g k ::
                 amendedTrace fmapKeys (amendedStep fmapKeys g k) ks) := by
          simp only [closest_assign_loop, hstep, exceptBind_ok, hpy, hfm, hfpE, hrec]
          rfl
      _ = .ok (amendedPairing fmapKeys fsn funSn g pairing (k :: ks),
               amendedTrace fmapKeys g (k :: ks)) := by
          simp only [amendedPairing, amendedTrace, hfpD, hfmD]

/-! ### Key-set facts about the amended assignment -/

theorem amendedPairing_keys_mono (fmapKeys : List Int) (fsn : List (Int × List String))
    (funSn : List (Int × String)) :
    ∀ (ks : List Int) (g : Nat) (pairing : List (String × List String)) (m : String),
      m ∈ dictKeys pairing →
      m ∈ dictKeys (amendedPairing fmapKeys fsn funSn g pairing ks) := by
  intro ks
  induction ks with
  | nil => intro g pairing m hm; exact hm
  | cons k ks ih =>
    intro g pairing m hm
    exact ih _ _ m ((mem_dictKeys_insert _ _ _ _).mpr (Or.inl hm))

theorem mem_amendedPairing_keys (fmapKeys : List Int) (fsn : List (Int × List String))
    (funSn : List (Int × String)) :
    ∀ (ks : List Int) (g : Nat) (pairing : List (String × List String)) (k : Int),
      k ∈ ks →
      dictGetD funSn k "" ∈ dictKeys (amendedPairing fmapKeys fsn funSn g pairing ks) := by
  intro ks
  induction ks with
  | nil => intro g pairing k hk; simp at hk
  | cons k0 ks ih =>
    intro g pairing k hk
    rcases List.mem_cons.mp hk with rfl | hk
    · exact amendedPairing_keys_mono fmapKeys fsn funSn ks _ _ _
        ((mem_dictKeys_insert _ _ _ _).mpr (Or.inr rfl))
    · exact ih _ _ k hk

theorem amendedPairing_keys_nodup (fmapKeys : List Int) (fsn : List (Int × List String))
    (funSn : List (Int × String)) :
    ∀ (ks : List Int) (g : Nat) (pairing : List (String × List String)),
      (dictKeys pairing).Nodup →
      (dictKeys (amendedPairing fmapKeys fsn funSn g pairing ks)).Nodup := by
  intro ks
  induction ks with
  | nil => intro g pairing h; exact h
  | cons k ks ih =>
    intro g pairing h
    exact ih _ _ (dictKeys_nodup_insert _ _ _ h)

theorem dictKeys_ne_nil {α β : Type} {d : List (α × β)} (h : d ≠ []) : dictKeys d ≠ [] := by
  cases d with
  | nil => cases h rfl
  | cons p rest => simp [dictKeys_cons]

/-- Master refinement lemma for the `closest` engine: on a nonempty
fieldmap list the traced loop succeeds, and the pairing and cursor trace it
returns are exactly those of the amended one-step cursor rule. -/
theorem pair_by_closest_traced_eq (fmapFiles : List FmapFile) (func : List FuncFile)
    (hne : fmapFiles ≠ []) :
    ∃ fsn, fmap_series_map (get_fmap_runs fmapFiles) = .ok fsn ∧ fsn ≠ [] ∧
      pair_by_closest_traced fmapFiles func =
        .ok (amendedPairing (pySorted (dictKeys fsn)) fsn (func_series_map func) 0 []
               (pySorted (dictKeys (func_series_map func))),
             amendedTrace (pySorted (dictKeys fsn)) 0
               (pySorted (dictKeys (func_series_map func)))) := by
  rcases fmap_series_map_ok (get_fmap_runs_groups_ne_nil fmapFiles) with ⟨fsn, hfsn, hfsnne⟩
  have hfsn_ne : fsn ≠ [] := hfsnne (get_fmap_runs_ne_nil hne)
  have hsortne : pySorted (dictKeys fsn) ≠ [] := pySorted_ne_nil (dictKeys_ne_nil hfsn_ne)
  have h0 : 0 < (pySorted (dictKeys fsn)).length := List.length_pos.mpr hsortne
  have hloop := closest_assign_loop_eq (pySorted (dictKeys fsn)) fsn (func_series_map func)
    (fun x hx => mem_pySorted.mp hx)
    (pySorted (dictKeys (func_series_map func))) 0 [] h0
    (fun x hx => mem_pySorted.mp hx)
  refine ⟨fsn, hfsn, hfsn_ne, ?_⟩
  simp only [pair_by_closest_traced, hfsn, exceptBind_ok]
  exact hloop

/-! ## Claim theorems -/

/-- Claim C1, counterexample. With three fieldmap groups whose sorted order
keys are 10, 20 and 30 and a single acquisition with order key 35, the
code's cursor stops at group index 1 (order key 20, files `p20*`), while
the claimed while-loop rule (`advance while g < len(groups) - 1 and
a.order_key > groups[g+1].order_key`) selects group index 2 (order key 30).
So the code's assignment is not the one the claimed forward cursor rule
selects. -/
theorem closest_cursor_claim_counterexample :
    pair_by_closest_traced
        [⟨"p10a.json", 1, 10⟩, ⟨"p10b.json", 1, 11⟩,
         ⟨"p20a.json", 2, 20⟩, ⟨"p20b.json", 2, 21⟩,
         ⟨"p30a.json", 3, 30⟩, ⟨"p30b.json", 3, 31⟩]
        [⟨"f35.nii.gz", 35⟩]
      = .ok ([("f35.nii.gz", ["p20a.json", "p20b.json"])], [1])
    ∧ fmap_series_map (get_fmap_runs
        [⟨"p10a.json", 1, 10⟩, ⟨"p10b.json", 1, 11⟩,
         ⟨"p20a.json", 2, 20⟩, ⟨"p20b.json", 2, 21⟩,
         ⟨"p30a.json", 3, 30⟩, ⟨"p30b.json", 3, 31⟩])
      = .ok [(10, ["p10a.json", "p10b.json"]), (20, ["p20a.json", "p20b.json"]),
             (30, ["p30a.json", "p30b.json"])]
    ∧ pySorted (dictKeys [((10 : Int), ["p10a.json", "p10b.json"]),
        (20, ["p20a.json", "p20b.json"]), (30, ["p30a.json", "p30b.json"])]) = [10, 20, 30]
    ∧ claimCursorTrace [10, 20, 30] 0 [35] = [2]
    ∧ (1 : Nat) ≠ 2 := by
  refine ⟨by decide, by decide, by decide, by decide, by decide⟩

/-- Claim C1 as amended: under `closest` the code follows a forward cursor
that advances AT MOST ONE group per acquisition — before assigning an
acquisition the cursor moves one step exactly when a next group exists
whose order key is ≤ the acquisition's key; hence an acquisition preceding
every group's key is assigned to the first group, and one equal to the
next group's key advances onto that equal-key group, never beyond it. The
theorem: for every nonempty fieldmap list and any functional list, the
traced `pair_by_closest` returns exactly the pairing and cursor trace of
the amended one-step rule. -/
theorem closest_matches_one_step_cursor (fmapFiles : List FmapFile) (func : List FuncFile)
    (hne : fmapFiles ≠ []) :
    ∃ fsn, fmap_series_map (get_fmap_runs fmapFiles) = .ok fsn ∧
      pair_by_closest_traced fmapFiles func =
        .ok (amendedPairing (pySorted (dictKeys fsn)) fsn (func_series_map func) 0 []
               (pySorted (dictKeys (func_series_map func))),
             amendedTrace (pySorted (dictKeys fsn)) 0
               (pySorted (dictKeys (func_series_map func)))) := by
  rcases pair_by_closest_traced_eq fmapFiles func hne with ⟨fsn, h1, _, h2⟩
  exact ⟨fsn, h1, h2⟩

/-- Witness for `closest_matches_one_step_cursor` at a concrete input. -/
theorem closest_matches_one_step_cursor_witness :
    ∃ fsn, fmap_series_map (get_fmap_runs
        [⟨"a.json", 1, 3⟩, ⟨"b.json", 1, 4⟩]) = .ok fsn ∧
      pair_by_closest_traced [⟨"a.json", 1, 3⟩, ⟨"b.json", 1, 4⟩] [⟨"f.nii.gz", 5⟩] =
        .ok (amendedPairing (pySorted (dictKeys fsn)) fsn
               (func_series_map [⟨"f.nii.gz", 5⟩]) 0 []
               (pySorted (dictKeys (func_series_map [⟨"f.nii.gz", 5⟩]))),
             amendedTrace (pySorted (dictKeys fsn)) 0
               (pySorted (dictKeys (func_series_map [⟨"f.nii.gz", 5⟩])))) :=
  closest_matches_one_step_cursor [⟨"a.json", 1, 3⟩, ⟨"b.json", 1, 4⟩] [⟨"f.nii.gz", 5⟩]
    (by decide)

/-- Claim C2 (a code bug): with no fieldmap pairs the `last` branch of
`sefm_select` indexes `pairs[-1]` and raises `IndexError` right after
printing the empty-result message, and the `closest` engine indexes
`fmap_keys[1]` on the empty key list and raises `IndexError` as soon as
there is a functional image — instead of the claimed empty assignment with
no error. -/
theorem empty_fieldmap_pairs_raise_index_error :
    sefm_select "last" [] = .error .indexError
    ∧ pair_by_closest [] [⟨"f.nii.gz", 5⟩] = .error .indexError := by
  refine ⟨by decide, by decide⟩

/-- Claim C3, counterexample. Two functional scans share SeriesNumber 10;
the `func_series_nums` dict comprehension keeps only the later record, so
acquisition `fa.nii.gz` is dropped: it appears in no group's assigned
list, refuting coverage for arbitrary acquisition sequences. -/
theorem closest_duplicate_series_drops_acquisition :
    pair_by_closest [⟨"a.json", 1, 1⟩, ⟨"b.json", 1, 2⟩]
        [⟨"fa.nii.gz", 10⟩, ⟨"fb.nii.gz", 10⟩]
      = .ok [("fb.nii.gz", ["a.json", "b.json"])]
    ∧ ¬ ("fa.nii.gz" ∈ dictKeys [("fb.nii.gz", ["a.json", "b.json"])]) := by
  refine ⟨by decide, by decide⟩

/-- Shared characterization of `pair_by_last`: on a nonempty fieldmap list
it succeeds and its writes are exactly one per member of the group with
the greatest run identifier, each valued with the full acquisition path
list. -/
theorem pair_by_last_max_run (fmapFiles : List FmapFile)
    (funcPaths : List String) (hne : fmapFiles ≠ []) :
    ∃ r grp, dictGet? (get_fmap_runs fmapFiles) r = some grp ∧
      (∀ k ∈ dictKeys (get_fmap_runs fmapFiles), k ≤ r) ∧
      pair_by_last fmapFiles funcPaths = .ok (grp.map (fun f => (f.path, funcPaths))) := by
  have hkeysne : dictKeys (get_fmap_runs fmapFiles) ≠ [] :=
    dictKeys_ne_nil (get_fmap_runs_ne_nil hne)
  rcases pyLastE_pySorted_max (dictKeys (get_fmap_runs fmapFiles)) hkeysne with
    ⟨m, hlast, hmem, hmax⟩
  rcases dictGet?_isSome_of_mem _ m hmem with ⟨grp, hgrp⟩
  refine ⟨m, grp, hgrp, hmax, ?_⟩
  have hget : dictGetE (get_fmap_runs fmapFiles) m = .ok grp := by
    unfold dictGetE
    rw [hgrp]
  simp only [pair_by_last, hlast, exceptBind_ok, hget]
  rfl

/-- Claim C3 as amended: for every nonempty fieldmap list, coverage holds
as claimed under the `last` strategy for every acquisition sequence — the
single greatest-run-id group's members each receive the full acquisition
path list in original order, and no other group receives a write, so each
acquisition is assigned to exactly that one group — and under the
`closest` strategy it holds provided the acquisitions' series numbers are
pairwise distinct: `pair_by_closest` succeeds and every acquisition's path
appears exactly once among the pairing keys — assigned to exactly one
fieldmap group, none unassigned, none assigned twice. (With duplicate
series numbers the `func_series_nums` comprehension keeps only the later
record, so `closest` drops the earlier acquisition.) -/
theorem last_and_closest_cover_each_acquisition (fmapFiles : List FmapFile)
    (func : List FuncFile) (hne : fmapFiles ≠ [])
    (hnd : (func.map (fun f => f.series)).Nodup) :
    (∃ pairing, pair_by_closest fmapFiles func = .ok pairing ∧
        ∀ f ∈ func, (dictKeys pairing).count f.path = 1)
    ∧ (∃ r grp, dictGet? (get_fmap_runs fmapFiles) r = some grp ∧
        (∀ k ∈ dictKeys (get_fmap_runs fmapFiles), k ≤ r) ∧
        pair_by_last fmapFiles (func.map (fun f => f.path)) =
          .ok (grp.map (fun g => (g.path, func.map (fun f => f.path)))) ∧
        ∀ f ∈ func, ∀ w ∈ grp.map (fun g => (g.path, func.map (fun f2 => f2.path))),
          f.path ∈ w.2) := by
  constructor
  · rcases pair_by_closest_traced_eq fmapFiles func hne with ⟨fsn, _, _, h2⟩
    refine ⟨amendedPairing (pySorted (dictKeys fsn)) fsn (func_series_map func) 0 []
      (pySorted (dictKeys (func_series_map func))), ?_, ?_⟩
    · unfold pair_by_closest
      rw [h2]
      rfl
    · intro f hf
      have hnodup : (dictKeys (amendedPairing (pySorted (dictKeys fsn)) fsn
          (func_series_map func) 0 [] (pySorted (dictKeys (func_series_map func))))).Nodup :=
        amendedPairing_keys_nodup _ _ _ _ _ _ (by simp [dictKeys])
      have hkmem : f.series ∈ pySorted (dictKeys (func_series_map func)) := by
        refine mem_pySorted.mpr ?_
        rw [func_series_map_eq hnd]
        simp only [dictKeys, List.map_map]
        exact List.mem_map.mpr ⟨f, hf, rfl⟩
      have hgetD : dictGetD (func_series_map func) f.series "" = f.path := by
        unfold dictGetD
        rw [func_series_map_get hnd hf]
        rfl
      have hmem := mem_amendedPairing_keys (pySorted (dictKeys fsn)) fsn (func_series_map func)
        (pySorted (dictKeys (func_series_map func))) 0 [] f.series hkmem
      rw [hgetD] at hmem
      exact List.count_eq_one_of_mem hnodup hmem
  · rcases pair_by_last_max_run fmapFiles (func.map (fun f => f.path)) hne with
      ⟨r, grp, h1, h2, h3⟩
    refine ⟨r, grp, h1, h2, h3, ?_⟩
    intro f hf w hw
    rcases List.mem_map.mp hw with ⟨g, _, rfl⟩
    exact List.mem_map.mpr ⟨f, hf, rfl⟩

/-- Witness for `last_and_closest_cover_each_acquisition` at a concrete
input. -/
theorem last_and_closest_cover_each_acquisition_witness :
    (∃ pairing, pair_by_closest [⟨"a.json", 1, 3⟩, ⟨"b.json", 1, 4⟩]
        [⟨"f1.nii.gz", 5⟩, ⟨"f2.nii.gz", 6⟩] = .ok pairing ∧
        ∀ f ∈ ([⟨"f1.nii.gz", 5⟩, ⟨"f2.nii.gz", 6⟩] : List FuncFile),
          (dictKeys pairing).count f.path = 1)
    ∧ (∃ r grp, dictGet? (get_fmap_runs [⟨"a.json", 1, 3⟩, ⟨"b.json", 1, 4⟩]) r = some grp ∧
        (∀ k ∈ dictKeys (get_fmap_runs [⟨"a.json", 1, 3⟩, ⟨"b.json", 1, 4⟩]), k ≤ r) ∧
        pair_by_last [⟨"a.json", 1, 3⟩, ⟨"b.json", 1, 4⟩]
            (([⟨"f1.nii.gz", 5⟩, ⟨"f2.nii.gz", 6⟩] : List FuncFile).map (fun f => f.path)) =
          .ok (grp.map (fun g => (g.path,
            (([⟨"f1.nii.gz", 5⟩, ⟨"f2.nii.gz", 6⟩] : List FuncFile)).map (fun f => f.path)))) ∧
        ∀ f ∈ ([⟨"f1.nii.gz", 5⟩, ⟨"f2.nii.gz", 6⟩] : List FuncFile),
          ∀ w ∈ grp.map (fun g => (g.path,
              (([⟨"f1.nii.gz", 5⟩, ⟨"f2.nii.gz", 6⟩] : List FuncFile)).map (fun f2 => f2.path))),
            f.path ∈ w.2) :=
  last_and_closest_cover_each_acquisition [⟨"a.json", 1, 3⟩, ⟨"b.json", 1, 4⟩]
    [⟨"f1.nii.gz", 5⟩, ⟨"f2.nii.gz", 6⟩] (by decide) (by decide)

/-- Claim C4, counterexample. Run 1 holds series numbers 30/31 and run 2
holds 10/11, so the group with the greatest order key (min member series)
is run 1; but `pair_by_last` keys on `sorted(fmap.keys())[-1]` — the
greatest RUN id — and sends every write to run 2's files, none to run 1's. -/
theorem pair_by_last_ignores_order_key :
    pair_by_last [⟨"r1a.json", 1, 30⟩, ⟨"r1b.json", 1, 31⟩,
        ⟨"r2a.json", 2, 10⟩, ⟨"r2b.json", 2, 11⟩] ["fA.nii.gz", "fB.nii.gz"]
      = .ok [("r2a.json", ["fA.nii.gz", "fB.nii.gz"]), ("r2b.json", ["fA.nii.gz", "fB.nii.gz"])]
    ∧ pyMin [30, 31] = .ok 30 ∧ pyMin [10, 11] = .ok 10 ∧ (10 : Int) < 30
    ∧ ¬ ("r1a.json" ∈ dictKeys [("r2a.json", ["fA.nii.gz", "fB.nii.gz"]),
          ("r2b.json", ["fA.nii.gz", "fB.nii.gz"])]) := by
  refine ⟨by decide, by decide, by decide, by decide, by decide⟩

/-- Claim C4 as amended: under `last`, for every nonempty fieldmap list the
entire acquisition path list, in its original order, is written to every
member of the single group with the greatest RUN identifier (not the
greatest order key), and nothing is written for any other group. -/
theorem pair_by_last_targets_greatest_run_id (fmapFiles : List FmapFile)
    (funcPaths : List String) (hne : fmapFiles ≠ []) :
    ∃ r grp, dictGet? (get_fmap_runs fmapFiles) r = some grp ∧
      (∀ k ∈ dictKeys (get_fmap_runs fmapFiles), k ≤ r) ∧
      pair_by_last fmapFiles funcPaths = .ok (grp.map (fun f => (f.path, funcPaths))) :=
  pair_by_last_max_run fmapFiles funcPaths hne

/-- Witness for `pair_by_last_targets_greatest_run_id` at a concrete input. -/
theorem pair_by_last_targets_greatest_run_id_witness :
    ∃ r grp, dictGet? (get_fmap_runs [⟨"a.json", 1, 3⟩, ⟨"b.json", 1, 4⟩]) r = some grp ∧
      (∀ k ∈ dictKeys (get_fmap_runs [⟨"a.json", 1, 3⟩, ⟨"b.json", 1, 4⟩]), k ≤ r) ∧
      pair_by_last [⟨"a.json", 1, 3⟩, ⟨"b.json", 1, 4⟩] ["f.nii.gz"] =
        .ok (grp.map (fun f => (f.path, ["f.nii.gz"]))) :=
  pair_by_last_targets_greatest_run_id [⟨"a.json", 1, 3⟩, ⟨"b.json", 1, 4⟩] ["f.nii.gz"]
    (by decide)

/-- Claim C5, counterexample. Three fieldmap files share run 1;
`get_fmap_runs` returns the size-3 partition as a group, with no
cardinality check and no exception (no `UnpairedFieldmapError` exists
anywhere in the code). -/
theorem get_fmap_runs_returns_group_of_three :
    get_fmap_runs [⟨"a.json", 1, 1⟩, ⟨"b.json", 1, 2⟩, ⟨"c.json", 1, 3⟩]
      = [(1, [⟨"a.json", 1, 1⟩, ⟨"b.json", 1, 2⟩, ⟨"c.json", 1, 3⟩])]
    ∧ ([(⟨"a.json", 1, 1⟩ : FmapFile), ⟨"b.json", 1, 2⟩, ⟨"c.json", 1, 3⟩]).length = 3
    ∧ (3 : Nat) ≠ 2 := by
  refine ⟨by decide, by decide, by decide⟩

/-- Claim C5 as amended: `get_fmap_runs` performs no cardinality
validation at all — for every input it simply partitions by run
identifier: the group stored under run `r` is exactly the subsequence of
files whose run is `r` (whatever its size, including sizes other than 2),
keys are unique, and the function is total (it can raise nothing, in
particular no `UnpairedFieldmapError`, which does not exist in the code). -/
theorem get_fmap_runs_partitions_without_cardinality_check
    (files : List FmapFile) (r : Int) :
    dictGet? (get_fmap_runs files) r =
      (if files.filter (fun f => f.run = r) = [] then none
       else some (files.filter (fun f => f.run = r)))
    ∧ (dictKeys (get_fmap_runs files)).Nodup :=
  ⟨get_fmap_runs_get files r, get_fmap_runs_keys_nodup files⟩

/-- Claim C6, counterexample. The strategy string `bogus` is outside the
claimed enum, yet `sefm_select` matches no branch, performs nothing, and
completes normally returning the initial pair of empty strings — it is
silently ignored, not surfaced as a configuration error. -/
theorem unknown_strategy_completes_normally :
    sefm_select "bogus" [("p.nii.gz", "n.nii.gz")] = .ok ("", "") := by decide

/-- Claim C6 as amended: every strategy value other than the three strings
the `if/elif` chain tests (`last`, `eta_square`, `closest`) is silently
ignored: `sefm_select` returns `('', '')` normally and raises nothing.
(The claimed enum values `task` and `eta_squared` are themselves among the
silently ignored values, since the code compares against `eta_square` and
has no `task` branch.) -/
theorem unknown_strategy_is_silent_noop (strategy : String)
    (pairs : List (String × String)) (h1 : strategy ≠ "last")
    (h2 : strategy ≠ "eta_square") (h3 : strategy ≠ "closest") :
    sefm_select strategy pairs = .ok ("", "") := by
  unfold sefm_select
  rw [if_neg h1, if_neg h2, if_neg h3]

/-- Witness for `unknown_strategy_is_silent_noop` at a concrete input. -/
theorem unknown_strategy_is_silent_noop_witness :
    sefm_select "task" [("p.nii.gz", "n.nii.gz")] = .ok ("", "") :=
  unknown_strategy_is_silent_noop "task" [("p.nii.gz", "n.nii.gz")]
    (by decide) (by decide) (by decide)

/-- Claim C7, counterexample. With the spelling `eta_squared` (used by the
claim and by the script's own CLI help) and a non-empty pair list,
`sefm_select` matches no branch (the code compares against `eta_square`)
and returns `('', '')` normally: no `UnsupportedStrategyError` — no such
exception exists in the code — and no error of any kind is raised. -/
theorem eta_squared_completes_normally :
    sefm_select "eta_squared" [("p.nii.gz", "n.nii.gz")] = .ok ("", "") := by decide

/-- Claim C7 as amended: selecting the eta-squared strategy is a silent
no-op for every input, under both spellings: `eta_squared` matches no
branch and the recognized spelling `eta_square` hits a `pass` branch; both
return `('', '')` normally and never raise. -/
theorem eta_strategies_return_empty_pair (pairs : List (String × String)) :
    sefm_select "eta_squared" pairs = .ok ("", "")
    ∧ sefm_select "eta_square" pairs = .ok ("", "") := by
  exact ⟨rfl, rfl⟩

/-- Claim C8 (a code bug): the `closest` materializer inverts the write
direction. For one fieldmap run (`fmapA/B.json`, series 2 and 3) and one
functional scan acquired after it, the engine's map sends the FUNCTIONAL
path to the fieldmap sidecar paths, and the write loop of lines 121–123
therefore targets `func1.json` — the functional scan's sidecar — with the
fieldmap sidecar paths as the value, instead of one write per fieldmap
file valued with the acquisition paths. (In the script the loop is not
even reached: the branch first calls the undefined module-level name
`pair_fmap` and raises `NameError`, as the third conjunct records.) -/
theorem closest_branch_writes_functional_sidecars :
    pair_by_closest [⟨"fmapA.json", 1, 2⟩, ⟨"fmapB.json", 1, 3⟩] [⟨"func1.nii.gz", 5⟩]
      = .ok [("func1.nii.gz", ["fmapA.json", "fmapB.json"])]
    ∧ closest_branch_writes [("func1.nii.gz", ["fmapA.json", "fmapB.json"])]
      = [("func1.json", "IntendedFor", ["fmapA.json", "fmapB.json"])]
    ∧ sefm_select "closest" [("fmapA.nii.gz", "fmapB.nii.gz")]
      = .error (.nameError "pair_fmap") := by
  refine ⟨by decide, by decide, by decide⟩

/-- Claim C9, counterexample. Upserting `IntendedFor` twice with the
identical value into an initially empty document emits the insertion log
line BOTH times (the `else` branch prints `Inserting` whenever it does not
warn, including when the field already holds the same value): two
insert-logs, not exactly one. -/
theorem upsert_twice_emits_two_insert_logs :
    (insert_edit_json ([] : List (String × List String)) "IntendedFor" ["a.nii.gz"]).2
      = JsonLog.insertLog
    ∧ (insert_edit_json
        (insert_edit_json ([] : List (String × List String)) "IntendedFor" ["a.nii.gz"]).1
        "IntendedFor" ["a.nii.gz"]).2 = JsonLog.insertLog
    ∧ ((2 : Nat) ≠ 1) := by
  refine ⟨by decide, by decide, by decide⟩

/-- Claim C9 as amended: calling `insert_edit_json` twice with the same
field and value on a document initially lacking the field is idempotent on
the document and emits zero replacement warnings, but each of the TWO
calls emits an insert-log (not exactly one in total): the second call
leaves the document unchanged and every key other than the upserted field
keeps its original binding. -/
theorem upsert_idempotent_with_insert_log_per_call {α : Type} [DecidableEq α]
    (doc : List (String × α)) (field : String) (v : α)
    (habs : dictGet? doc field = none) :
    (insert_edit_json doc field v).2 = JsonLog.insertLog
    ∧ (insert_edit_json (insert_edit_json doc field v).1 field v).2 = JsonLog.insertLog
    ∧ (insert_edit_json (insert_edit_json doc field v).1 field v).1
        = (insert_edit_json doc field v).1
    ∧ ∀ k, k ≠ field →
        dictGet? (insert_edit_json (insert_edit_json doc field v).1 field v).1 k
          = dictGet? doc k := by
  have hfst : (insert_edit_json doc field v).1 = dictInsert doc field v := rfl
  refine ⟨?_, ?_, ?_, ?_⟩
  · simp [insert_edit_json, habs]
  · simp [insert_edit_json, hfst, dictGet?_insert_self]
  · simp only [hfst]
    show dictInsert (dictInsert doc field v) field v = dictInsert doc field v
    exact dictInsert_idem doc field v
  · intro k hk
    simp only [hfst]
    show dictGet? (dictInsert (dictInsert doc field v) field v) k = dictGet? doc k
    rw [dictInsert_idem doc field v, dictGet?_insert_ne doc field k v (fun h => hk h.symm)]

/-- Witness for `upsert_idempotent_with_insert_log_per_call` at a concrete
document. -/
theorem upsert_idempotent_with_insert_log_per_call_witness :
    dictGet? (insert_edit_json
        (insert_edit_json [("x", ["w"])] "IntendedFor" ["a.nii.gz"]).1
        "IntendedFor" ["a.nii.gz"]).1 "x" = dictGet? [("x", ["w"])] "x" :=
  (upsert_idempotent_with_insert_log_per_call [("x", ["w"])] "IntendedFor" ["a.nii.gz"]
    (by decide)).2.2.2 "x" (by decide)

/-- Claim C10, counterexample. For the strategy `closest` — which is not
`last` — `sefm_select` does not return `('', '')`: its first statement
calls `pair_fmap`, a name that is never defined at module scope, so the
call raises `NameError` instead of returning. -/
theorem closest_strategy_raises_name_error :
    sefm_select "closest" [("p.nii.gz", "n.nii.gz")] = .error (.nameError "pair_fmap") := by
  decide

/-- Claim C10 as amended: for every strategy other than `last` and
`closest`, `sefm_select` returns the pair of empty strings, and the
caller's sidecar-path derivation on an empty string yields the literal
`.json`. (For `closest` the call instead raises `NameError`.) -/
theorem non_last_non_closest_returns_empty_pair (strategy : String)
    (pairs : List (String × String)) (h1 : strategy ≠ "last")
    (h2 : strategy ≠ "closest") :
    sefm_select strategy pairs = .ok ("", "") ∧ sidecar_path "" = ".json" := by
  constructor
  · unfold sefm_select
    rw [if_neg h1]
    by_cases he : strategy = "eta_square"
    · rw [if_pos he]
    · rw [if_neg he, if_neg h2]
  · decide

/-- Witness for `non_last_non_closest_returns_empty_pair` at a concrete
strategy. -/
theorem non_last_non_closest_returns_empty_pair_witness :
    sefm_select "eta_square" [("p.nii.gz", "n.nii.gz")] = .ok ("", "")
    ∧ sidecar_path "" = ".json" :=
  non_last_non_closest_returns_empty_pair "eta_square" [("p.nii.gz", "n.nii.gz")]
    (by decide) (by decide)

end IntendedFor
